import Mathlib

/-!
Verification development for the citation-consistency and bibliography
components of the report updater.

Strings are modelled as lists of characters (`Str`).  The regular-expression
scans of `validator.py` are embedded as executable recursive scanners:

* `findCites` embeds `re.findall(r'\[(\d+)\]', text)` (digit class modelled
  as ASCII digits) as a one-pass state machine equivalent to the
  left-to-right non-overlapping scan of the Python `re` module;
* `lastSplitTail` embeds `re.split(r'Sources|Bibliography|References', text,
  flags=re.IGNORECASE)` followed by `parts[-1]`: the tail of the text after
  the final match of the scan, or `none` when there is no match;
* `validate_citations` embeds `validator.validate_citations`;
* `aggAux` embeds the bibliography-aggregation loop of `app.py`
  (lines 399-410) and `renderAcademicTitle` its title display form;
* `validate_links` embeds `validator.validate_links`, with the network
  modelled as an oracle `Str → NetOutcome`.
-/

namespace RepUp

abbrev Str := List Char

/-- Case-insensitive prefix strip: `matchCI p s = some t` when the first
`p.length` characters of `s` lowercase to `p` and `t` is the rest; this is
how one alternative of the `re.IGNORECASE` split pattern matches at a
position. -/
def matchCI : Str → Str → Option Str
  | [], s => some s
  | _ :: _, [] => none
  | p :: ps, c :: cs => if c.toLower = p then matchCI ps cs else none

def sourcesL : Str := ['s', 'o', 'u', 'r', 'c', 'e', 's']

def bibliographyL : Str := ['b', 'i', 'b', 'l', 'i', 'o', 'g', 'r', 'a', 'p', 'h', 'y']

def referencesL : Str := ['r', 'e', 'f', 'e', 'r', 'e', 'n', 'c', 'e', 's']

/-- One attempt of the split pattern `Sources|Bibliography|References`
(case-insensitive) at the head of `s`; alternatives begin with distinct
letters, so at most one can match. -/
def markerTail (s : Str) : Option Str :=
  match matchCI sourcesL s with
  | some t => some t
  | none =>
    match matchCI bibliographyL s with
    | some t => some t
    | none => matchCI referencesL s

/-- Fuelled left-to-right non-overlapping scan for the split pattern,
returning the text after the end of the LAST match (`re.split(...)[-1]`),
or `none` when the pattern never matches. -/
def scanLast : Nat → Str → Option Str
  | 0, _ => none
  | _ + 1, [] => none
  | fuel + 1, c :: cs =>
    match markerTail (c :: cs) with
    | some t =>
      match scanLast fuel t with
      | some t' => some t'
      | none => some t
    | none => scanLast fuel cs

/-- `parts = re.split(r'Sources|Bibliography|References', text, flags=re.IGNORECASE)`;
`lastSplitTail text = some parts[-1]` when a match exists, `none` otherwise. -/
def lastSplitTail (s : Str) : Option Str :=
  scanLast s.length s

/-- `m` is one of the three marker words up to case. -/
def isMarkerCI (m : Str) : Prop :=
  m.map Char.toLower = sourcesL ∨ m.map Char.toLower = bibliographyL ∨
    m.map Char.toLower = referencesL

instance (m : Str) : Decidable (isMarkerCI m) := by
  unfold isMarkerCI; infer_instance

/-- Some suffix of `s` begins with a marker word (case-insensitively), i.e.
the split pattern occurs somewhere in `s`. -/
def hasMarkerB (s : Str) : Bool :=
  s.tails.any fun t => (markerTail t).isSome

/-- Scanner state for the `\[(\d+)\]` scan: outside any candidate match, or
inside brackets having read the digits `ds` since the last `[`. -/
inductive CState : Type
  | out : CState
  | ins : Str → CState

/-- One-pass scan emitting the capture groups of
`re.findall(r'\[(\d+)\]', s)` in order, starting in state `σ`; equivalent to
the `re` module's left-to-right non-overlapping scan because a failed
attempt at a `[` skips only digit characters, which cannot start a match. -/
def citesFrom : CState → Str → List Str
  | _, [] => []
  | .out, c :: cs => if c = '[' then citesFrom (.ins []) cs else citesFrom .out cs
  | .ins ds, c :: cs =>
    if c = '[' then citesFrom (.ins []) cs
    else if c.isDigit then citesFrom (.ins (ds ++ [c])) cs
    else if c = ']' then
      (if ds = [] then citesFrom .out cs else ds :: citesFrom .out cs)
    else citesFrom .out cs

/-- The capture groups of `re.findall(r'\[(\d+)\]', s)`, in match order. -/
def findCites (s : Str) : List Str :=
  citesFrom .out s

/-- The digit string `d` occurs bracketed (`[d]`) somewhere in `s`. -/
def Occurs (d s : Str) : Prop :=
  ∃ a b, s = a ++ '[' :: (d ++ ']' :: b)

/-- The report dictionary built by `validate_citations`; the Python `set`s
become `Finset`s (their iteration order is unspecified). -/
structure CitationReport : Type where
  text_citations : Finset Str
  bib_citations : Finset Str
  orphans_in_text : Finset Str
  orphans_in_bib : Finset Str
  has_original_ref : Bool
deriving DecidableEq

/-- Embedding of `validator.validate_citations`: bracketed integers of the
whole text, split at the marker words (error dictionary if no match, else
the tail after the last match), bracketed integers of that tail, the two
set differences, and the `"0" in in_text_citations` flag. -/
def validate_citations (text : Str) : Except String CitationReport :=
  let in_text : Finset Str := (findCites text).toFinset
  match lastSplitTail text with
  | none => Except.error "No bibliography section found"
  | some bib =>
    let in_bib : Finset Str := (findCites bib).toFinset
    Except.ok
      { text_citations := in_text
        bib_citations := in_bib
        orphans_in_text := in_text \ in_bib
        orphans_in_bib := in_bib \ in_text
        has_original_ref := decide (['0'] ∈ in_text) }

/-- The report when `validate_citations` succeeds, `none` on the error
dictionary. -/
def reportOf (text : Str) : Option CitationReport :=
  (validate_citations text).toOption

/-- Numeric value of a digit string (the claims' "as integers" reading). -/
def digitsToNat (d : Str) : Nat :=
  d.foldl (fun a c => 10 * a + (c.toNat - '0'.toNat)) 0

/-- Modelled from the spec: "split the text at the first case-insensitive
match of "Sources", "Bibliography", or "References" as a standalone marker
word; the tail after that marker is the bibliography text".  Standalone is
read as regex word boundaries (`[A-Za-z0-9_]` word characters) on both
sides of the marker.  The source (`validator.py` line 39-43) has no
counterpart of this definition; it exists only to compare the spec's
boundary rule with the code's. -/
def isWordChar (c : Char) : Bool :=
  c.isAlpha || c.isDigit || c = '_'

/-- The character after the marker (head of the tail) must not be a word
character for the marker to end at a word boundary. -/
def wordEndOK (t : Str) : Bool :=
  match t with
  | [] => true
  | c :: _ => !(isWordChar c)

/-- Marker match at the head of `s` that also ends at a word boundary. -/
def markerTailW (s : Str) : Option Str :=
  match markerTail s with
  | some t => if wordEndOK t then some t else none
  | none => none

/-- Fuelled scan for the spec's boundary rule: `prevW` records whether the
previous character was a word character; the first standalone marker wins. -/
def specScanFirst : Nat → Bool → Str → Option Str
  | 0, _, _ => none
  | _ + 1, _, [] => none
  | fuel + 1, prevW, c :: cs =>
    match (if prevW then none else markerTailW (c :: cs)) with
    | some t => some t
    | none => specScanFirst fuel (isWordChar c) cs

/-- Modelled from the spec: the tail after the FIRST standalone
(case-insensitive) marker word, the spec's notion of bibliography text. -/
def specFirstStandaloneTail (s : Str) : Option Str :=
  specScanFirst s.length false s

/-! ### Bibliography aggregation (`app.py` lines 399-428) -/

/-- A per-chapter source record `{title, url}` as produced by research. -/
structure SourceEntry : Type where
  title : Str
  url : Str
deriving DecidableEq

/-- Title tag tested by the routing branch `s['title'].startswith("[Academic]")`. -/
def tagNS : Str := "[Academic]".toList

/-- Substring removed by the display form `title.replace("[Academic] ", "")`. -/
def tagWS : Str := "[Academic] ".toList

/-- Embedding of the aggregation loop of `app.py` (lines 403-410) over the
flattened chapter entries, threading the `seen_urls` set: skip an entry
whose url was seen, otherwise mark it seen and append it to the academic
list if its title starts with `"[Academic]"`, else to the web list. -/
def aggAux : List SourceEntry → List Str → List SourceEntry × List SourceEntry
  | [], _ => ([], [])
  | e :: rest, seen =>
    if e.url ∈ seen then aggAux rest seen
    else if tagNS.isPrefixOf e.title then
      (e :: (aggAux rest (e.url :: seen)).1, (aggAux rest (e.url :: seen)).2)
    else
      ((aggAux rest (e.url :: seen)).1, e :: (aggAux rest (e.url :: seen)).2)

/-- The per-chapter loop `for sources in ...values(): for s in sources:` is
the single loop over the concatenation of the chapter lists in chapter
order. -/
def aggregateChapters (chs : List (List SourceEntry)) :
    List SourceEntry × List SourceEntry :=
  aggAux chs.flatten []

/-- Case-sensitive literal strip used by `startswith`/`replace`. -/
def dropExact (p s : Str) : Option Str :=
  if p.isPrefixOf s then some (s.drop p.length) else none

/-- Fuelled embedding of Python `str.replace(p, "")`: remove non-overlapping
occurrences of `p` left to right. -/
def replAll : Nat → Str → Str → Str
  | 0, _, s => s
  | _ + 1, _, [] => []
  | fuel + 1, p, c :: cs =>
    match dropExact p (c :: cs) with
    | some rest => replAll fuel p rest
    | none => c :: replAll fuel p cs

/-- Display form of an academic title (`app.py` line 418):
`source['title'].replace("[Academic] ", "")`. -/
def renderAcademicTitle (t : Str) : Str :=
  replAll t.length tagWS t

/-- Display form of a web title (`app.py` line 425): the title verbatim. -/
def renderWebTitle (t : Str) : Str :=
  t

/-- `p` occurs as a contiguous substring of `s`. -/
def occursB (p s : Str) : Bool :=
  s.tails.any fun t => p.isPrefixOf t

/-! ### Link validation (`validator.py` lines 4-28) -/

/-- Outcome of `requests.get` on one URL: an HTTP response with a status
code, or a raised exception rendered as its message (timeout, DNS failure,
connection refused, TLS error, ...).  The network is an oracle parameter. -/
inductive NetOutcome : Type
  | response : Nat → NetOutcome
  | exception : Str → NetOutcome
deriving DecidableEq

/-- Reason attached to a broken link: the status code for HTTP failures,
`str(e)` for transport failures. -/
inductive Reason : Type
  | status : Nat → Reason
  | failure : Str → Reason
deriving DecidableEq

/-- The response is counted valid exactly when `status_code < 400`. -/
def okB (o : NetOutcome) : Bool :=
  match o with
  | .response c => c < 400
  | .exception _ => false

/-- The `(url, reason)` payload appended for a failing URL. -/
def reasonOf (o : NetOutcome) : Reason :=
  match o with
  | .response c => .status c
  | .exception m => .failure m

/-- Characters admitted by the URL regex body
`(?:[a-zA-Z]|[0-9]|[$-_@.&+]|[!*\(\),]|(?:%[0-9a-fA-F][0-9a-fA-F]))+`:
each alternative is a single character from the listed classes (`$-_` is
the byte range 0x24-0x5F, and `%` and hex digits already lie in the earlier
classes, so the `%XX` alternative adds nothing). -/
def isUrlChar (c : Char) : Bool :=
  c.isAlpha || c.isDigit || (0x24 ≤ c.toNat && c.toNat ≤ 0x5F) ||
    c = '!' || c = '*' || c = '\\' || c = '(' || c = ')' || c = ','

def httpL : Str := "http".toList

def cssL : Str := "://".toList

/-- Finish a URL match: after the scheme, take the maximal run of URL body
characters; the `+` requires it to be non-empty. -/
def mkUrl (sch : Str) (u : Str) : Option (Str × Str) :=
  let body := u.takeWhile isUrlChar
  if body = [] then none else some (httpL ++ sch ++ cssL ++ body, u.dropWhile isUrlChar)

/-- Attempt of the URL regex at the head of `s`: literal `http`, greedy
optional `s` (no other alternative can succeed once `s` is present, since
`:` differs from `s`), literal `://`, then the body. -/
def tryUrlAt (s : Str) : Option (Str × Str) :=
  match dropExact httpL s with
  | none => none
  | some t =>
    match t with
    | 's' :: t' => if cssL.isPrefixOf t' then mkUrl ['s'] (t'.drop 3) else none
    | _ => if cssL.isPrefixOf t then mkUrl [] (t.drop 3) else none

/-- Fuelled left-to-right non-overlapping scan emitting URL matches. -/
def urlScan : Nat → Str → List Str
  | 0, _ => []
  | _ + 1, [] => []
  | fuel + 1, c :: cs =>
    match tryUrlAt (c :: cs) with
    | some p => p.1 :: urlScan fuel p.2
    | none => urlScan fuel cs

/-- `re.findall` of the URL pattern over `text`, in match order. -/
def findURLs (s : Str) : List Str :=
  urlScan s.length s

/-- One iteration of the `for url in urls` loop of `validate_links`. -/
def linkStep (net : Str → NetOutcome) (acc : Nat × List (Str × Reason))
    (url : Str) : Nat × List (Str × Reason) :=
  match net url with
  | .response code =>
    if code < 400 then (acc.1 + 1, acc.2) else (acc.1, acc.2 ++ [(url, .status code)])
  | .exception m => (acc.1, acc.2 ++ [(url, .failure m)])

/-- Embedding of `validator.validate_links`: deduplicate the extracted URLs
(`list(set(...))`; the set's iteration order is unspecified, and no claim
depends on it), then fold the per-URL check. -/
def validate_links (net : Str → NetOutcome) (text : Str) :
    Nat × List (Str × Reason) :=
  ((findURLs text).dedup).foldl (linkStep net) (0, [])

/-! ### Concrete inputs used by counterexamples and witnesses -/

def ex1 : Str := "[1] sources [2] resources [3]".toList

def specTail1 : Str := " [2] resources [3]".toList

def ex4 : Str := "Fact [0] cites original. Sources: [1] something".toList

def ex8 : Str := "Alt spelling [00] cited. Sources: [00] entry".toList

def exA : SourceEntry := { title := "[Academic]X".toList, url := "u".toList }

def exRenderT : Str := "[Academic] A [Academic] B".toList

def pA : SourceEntry := { title := "[Academic] Paper A".toList, url := "a.com".toList }

def pAdup : SourceEntry :=
  { title := "[Academic] Paper A (dup)".toList, url := "a.com".toList }

def w2 : Str := "plain text with no markers [3]".toList

/-- The report `validate_citations` produces on `ex4`. -/
def r4 : CitationReport :=
  { text_citations := {['0'], ['1']}
    bib_citations := {['1']}
    orphans_in_text := {['0']}
    orphans_in_bib := ∅
    has_original_ref := true }

def ex9 : Str := "[1] sources [1]".toList

/-- The report `validate_citations` produces on `ex9`. -/
def r9 : CitationReport :=
  { text_citations := {['1']}
    bib_citations := {['1']}
    orphans_in_text := ∅
    orphans_in_bib := ∅
    has_original_ref := false }

def w8 : Str := "[0] Sources [0]".toList

def wtail1 : Str := " [3]".toList

def wnet6 : Str → NetOutcome := fun _ => NetOutcome.response 404

def wtext6 : Str := "x http://a".toList

def wnet7 : Str → NetOutcome := fun u =>
  if u = "http://a".toList then NetOutcome.response 500
  else NetOutcome.exception "timeout".toList

def wtext7 : Str := "http://a http://b".toList

/-! ### Lemmas on the marker split scan -/

theorem matchCI_decomp {p s t : Str} (h : matchCI p s = some t) :
    ∃ m, s = m ++ t ∧ m.map Char.toLower = p := by
  induction p generalizing s with
  | nil =>
    simp only [matchCI, Option.some.injEq] at h
    exact ⟨[], by simp [h]⟩
  | cons q qs ih =>
    cases s with
    | nil => simp [matchCI] at h
    | cons c cs =>
      simp only [matchCI] at h
      split at h
      · obtain ⟨m, hm, hmap⟩ := ih h
        exact ⟨c :: m, by simp [hm], by simp [hmap, *]⟩
      · exact absurd h (by simp)

theorem matchCI_of_map {m : Str} : ∀ {p : Str}, m.map Char.toLower = p →
    ∀ b, matchCI p (m ++ b) = some b := by
  induction m with
  | nil => intro p h b; subst h; simp [matchCI]
  | cons c cs ih =>
    intro p h b
    subst h
    simp only [List.map_cons, List.cons_append, matchCI, if_pos rfl]
    exact ih rfl b

theorem isMarkerCI_ne_nil {m : Str} (h : isMarkerCI m) : m ≠ [] := by
  rcases h with h | h | h <;>
    · intro hn
      subst hn
      simp [sourcesL, bibliographyL, referencesL] at h

theorem markerTail_decomp {s t : Str} (h : markerTail s = some t) :
    ∃ m, s = m ++ t ∧ isMarkerCI m := by
  unfold markerTail at h
  split at h
  · obtain ⟨m, hm, hmap⟩ := matchCI_decomp (by assumption)
    cases h
    exact ⟨m, hm, Or.inl hmap⟩
  · split at h
    · obtain ⟨m, hm, hmap⟩ := matchCI_decomp (by assumption)
      cases h
      exact ⟨m, hm, Or.inr (Or.inl hmap)⟩
    · obtain ⟨m, hm, hmap⟩ := matchCI_decomp h
      exact ⟨m, hm, Or.inr (Or.inr hmap)⟩

theorem markerTail_of_marker {m : Str} (h : isMarkerCI m) (b : Str) :
    markerTail (m ++ b) = some b := by
  rcases h with h | h | h
  · simp [markerTail, matchCI_of_map h]
  · cases m with
    | nil => simp [bibliographyL] at h
    | cons c cs =>
      have hc : c.toLower = 'b' := by
        simpa [bibliographyL] using congrArg (fun l => l.headI) h
      have h1 : matchCI sourcesL (c :: (cs ++ b)) = none := by
        simp [sourcesL, matchCI, hc]
      have h3 := matchCI_of_map h b
      simp only [List.cons_append] at h3
      simp [markerTail, h1, h3]
  · cases m with
    | nil => simp [referencesL] at h
    | cons c cs =>
      have hc : c.toLower = 'r' := by
        simpa [referencesL] using congrArg (fun l => l.headI) h
      have h1 : matchCI sourcesL (c :: (cs ++ b)) = none := by
        simp [sourcesL, matchCI, hc]
      have h2 : matchCI bibliographyL (c :: (cs ++ b)) = none := by
        simp [bibliographyL, matchCI, hc]
      have h3 := matchCI_of_map h b
      simp only [List.cons_append] at h3
      simp [markerTail, h1, h2, h3]

theorem markerTail_length {s t : Str} (h : markerTail s = some t) :
    t.length < s.length := by
  obtain ⟨m, hm, hmk⟩ := markerTail_decomp h
  have hne : m ≠ [] := isMarkerCI_ne_nil hmk
  have : 0 < m.length := List.length_pos.mpr hne
  subst hm
  simp only [List.length_append]
  omega

theorem scanLast_congr : ∀ (f f' : Nat) (s : Str), s.length ≤ f →
    s.length ≤ f' → scanLast f s = scanLast f' s := by
  intro f
  induction f with
  | zero =>
    intro f' s hf _
    have : s = [] := List.eq_nil_of_length_eq_zero (Nat.le_zero.mp hf)
    subst this
    cases f' <;> simp [scanLast]
  | succ f ih =>
    intro f' s hf hf'
    cases s with
    | nil => cases f' <;> simp [scanLast]
    | cons c cs =>
      cases f' with
      | zero => simp at hf'
      | succ f'' =>
        cases hm : markerTail (c :: cs) with
        | none =>
          simp only [scanLast, hm]
          exact ih f'' cs (by simp at hf; omega) (by simp at hf'; omega)
        | some t =>
          have hlt : t.length < (c :: cs).length := markerTail_length hm
          have h1 : scanLast f t = scanLast f'' t :=
            ih f'' t (by simp at hf hlt ⊢; omega) (by simp at hf' hlt ⊢; omega)
          simp only [scanLast, hm, h1]

theorem scanLast_decomp : ∀ (f : Nat) (s t : Str), s.length ≤ f →
    scanLast f s = some t →
    (∃ pre m, s = pre ++ m ++ t ∧ isMarkerCI m) ∧ scanLast t.length t = none := by
  intro f
  induction f with
  | zero => intro s t _ h; simp [scanLast] at h
  | succ f ih =>
    intro s t hf h
    cases s with
    | nil => simp [scanLast] at h
    | cons c cs =>
      cases hm : markerTail (c :: cs) with
      | none =>
        simp only [scanLast, hm] at h
        obtain ⟨⟨pre, m, hdec, hmk⟩, hnone⟩ := ih cs t (by simp at hf; omega) h
        exact ⟨⟨c :: pre, m, by simp [hdec], hmk⟩, hnone⟩
      | some t0 =>
        have hlt : t0.length < (c :: cs).length := markerTail_length hm
        have ht0f : t0.length ≤ f := by simp at hf hlt ⊢; omega
        obtain ⟨m, hm1, hmk⟩ := markerTail_decomp hm
        cases hs : scanLast f t0 with
        | none =>
          simp only [scanLast, hm, hs, Option.some.injEq] at h
          subst h
          refine ⟨⟨[], m, by simp [hm1], hmk⟩, ?_⟩
          rw [scanLast_congr t0.length f t0 (le_refl _) ht0f]
          exact hs
        | some t' =>
          simp only [scanLast, hm, hs, Option.some.injEq] at h
          subst h
          obtain ⟨⟨pre', m', hdec', hmk'⟩, hnone'⟩ := ih t0 t' ht0f hs
          refine ⟨⟨m ++ pre', m', ?_, hmk'⟩, hnone'⟩
          rw [hm1, hdec']
          simp

theorem lastSplitTail_decomp {s t : Str} (h : lastSplitTail s = some t) :
    (∃ pre m, s = pre ++ m ++ t ∧ isMarkerCI m) ∧ lastSplitTail t = none := by
  exact scanLast_decomp s.length s t (le_refl _) h

theorem lastSplitTail_suffix {s t : Str} (h : lastSplitTail s = some t) :
    ∃ pre, s = pre ++ t := by
  obtain ⟨⟨pre, m, hdec, _⟩, _⟩ := lastSplitTail_decomp h
  exact ⟨pre ++ m, by simp [hdec]⟩

theorem exists_marker_of_hasMarkerB {s : Str} (h : hasMarkerB s = true) :
    ∃ a m b, s = a ++ m ++ b ∧ isMarkerCI m := by
  simp only [hasMarkerB, List.any_eq_true] at h
  obtain ⟨t, ht, hsome⟩ := h
  rw [List.mem_tails] at ht
  obtain ⟨t', ht'⟩ := Option.isSome_iff_exists.mp hsome
  obtain ⟨m, hm, hmk⟩ := markerTail_decomp ht'
  obtain ⟨a, ha⟩ := ht
  exact ⟨a, m, t', by rw [← ha, hm]; simp, hmk⟩

theorem hasMarkerB_of_exists {s : Str}
    (h : ∃ a m b, s = a ++ m ++ b ∧ isMarkerCI m) : hasMarkerB s = true := by
  obtain ⟨a, m, b, hdec, hmk⟩ := h
  simp only [hasMarkerB, List.any_eq_true]
  refine ⟨m ++ b, ?_, ?_⟩
  · rw [List.mem_tails, hdec, List.append_assoc]
    exact ⟨a, rfl⟩
  · simp [markerTail_of_marker hmk]

theorem markerTail_none_of_noMarker {s : Str}
    (h : ¬ ∃ a m b, s = a ++ m ++ b ∧ isMarkerCI m) :
    ∀ t, t <:+ s → markerTail t = none := by
  intro t ht
  cases hmt : markerTail t with
  | none => rfl
  | some t' =>
    obtain ⟨m, hm, hmk⟩ := markerTail_decomp hmt
    obtain ⟨a, ha⟩ := ht
    exact absurd ⟨a, m, t', by rw [← ha, hm]; simp, hmk⟩ h

theorem scanLast_none_of_noMarker : ∀ (f : Nat) (s : Str),
    (∀ t, t <:+ s → markerTail t = none) → scanLast f s = none := by
  intro f
  induction f with
  | zero => intro s _; rfl
  | succ f ih =>
    intro s h
    cases s with
    | nil => rfl
    | cons c cs =>
      simp only [scanLast]
      rw [h (c :: cs) (List.suffix_refl _)]
      exact ih cs fun t ht => h t (ht.trans (List.suffix_cons c cs))

/-! ### Lemmas on the bracketed-citation scan -/

theorem citesFrom_out_sub : ∀ (s : Str) (σ : CState),
    citesFrom .out s ⊆ citesFrom σ s := by
  intro s
  induction s with
  | nil => intro σ; simp [citesFrom]
  | cons c cs ih =>
    intro σ
    cases σ with
    | out => exact List.Subset.refl _
    | ins ds =>
      by_cases hb : c = '['
      · subst hb
        simp [citesFrom]
      · simp only [citesFrom, if_neg hb]
        by_cases hd : c.isDigit
        · simp only [if_pos hd]
          exact (ih .out).trans (ih (.ins (ds ++ [c])))
        · simp only [if_neg hd]
          by_cases hc : c = ']'
          · simp only [if_pos hc]
            by_cases hds : ds = []
            · simp only [if_pos hds]
              exact ih .out
            · simp only [if_neg hds]
              exact (ih .out).trans (List.subset_cons_self _ _)
          · simp only [if_neg hc]
            exact ih .out

theorem findCites_sub_append : ∀ (pre suf : Str),
    findCites suf ⊆ findCites (pre ++ suf) := by
  intro pre
  induction pre with
  | nil => intro suf; simp
  | cons c pre ih =>
    intro suf
    simp only [List.cons_append, findCites, citesFrom]
    by_cases hb : c = '['
    · simp only [if_pos hb]
      exact ((ih suf).trans (citesFrom_out_sub _ _) : findCites suf ⊆ _)
    · simp only [if_neg hb]
      exact ih suf

theorem Occurs.mono {d t : Str} (pre : Str) (h : Occurs d t) :
    Occurs d (pre ++ t) := by
  obtain ⟨a, b, hab⟩ := h
  exact ⟨pre ++ a, b, by rw [hab]; simp⟩

/-- Soundness of the scan: every emission is a bracketed run of digits that
occurs literally in the scanned text (stated for both scanner states; from
state `ins ds`, the text scanned so far ends in `[` followed by `ds`). -/
theorem citesFrom_sound : ∀ (s : Str),
    (∀ e, e ∈ citesFrom .out s →
      e ≠ [] ∧ (∀ c ∈ e, c.isDigit = true) ∧ Occurs e s) ∧
    (∀ ds, (∀ c ∈ ds, c.isDigit = true) → ∀ e, e ∈ citesFrom (.ins ds) s →
      e ≠ [] ∧ (∀ c ∈ e, c.isDigit = true) ∧ Occurs e ('[' :: (ds ++ s))) := by
  intro s
  induction s with
  | nil => simp [citesFrom]
  | cons c cs ih =>
    constructor
    · intro e he
      by_cases hb : c = '['
      · subst hb
        simp only [citesFrom, if_pos rfl] at he
        obtain ⟨h1, h2, h3⟩ := ih.2 [] (by simp) e he
        exact ⟨h1, h2, by simpa using h3⟩
      · simp only [citesFrom, if_neg hb] at he
        obtain ⟨h1, h2, h3⟩ := ih.1 e he
        exact ⟨h1, h2, by simpa using h3.mono [c]⟩
    · intro ds hds e he
      by_cases hb : c = '['
      · subst hb
        simp only [citesFrom, if_pos rfl] at he
        obtain ⟨h1, h2, h3⟩ := ih.2 [] (by simp) e he
        refine ⟨h1, h2, ?_⟩
        have := h3.mono ('[' :: ds)
        simpa using this
      · by_cases hd : c.isDigit
        · simp only [citesFrom, if_neg hb, if_pos hd] at he
          obtain ⟨h1, h2, h3⟩ := ih.2 (ds ++ [c]) (by
            intro x hx
            rcases List.mem_append.mp hx with hx | hx
            · exact hds x hx
            · simp at hx; subst hx; exact hd) e he
          exact ⟨h1, h2, by simpa using h3⟩
        · by_cases hc : c = ']'
          · subst hc
            simp only [citesFrom, if_neg hb, if_neg hd, if_pos rfl] at he
            by_cases hn : ds = []
            · rw [if_pos hn] at he
              obtain ⟨h1, h2, h3⟩ := ih.1 e he
              exact ⟨h1, h2, by simpa using h3.mono ('[' :: (ds ++ [']']))⟩
            · rw [if_neg hn] at he
              rcases List.mem_cons.mp he with he | he
              · subst he
                exact ⟨hn, hds, ⟨[], cs, by simp⟩⟩
              · obtain ⟨h1, h2, h3⟩ := ih.1 e he
                exact ⟨h1, h2, by simpa using h3.mono ('[' :: (ds ++ [']']))⟩
          · simp only [citesFrom, if_neg hb, if_neg hd, if_neg hc] at he
            obtain ⟨h1, h2, h3⟩ := ih.1 e he
            exact ⟨h1, h2, by simpa using h3.mono ('[' :: (ds ++ [c]))⟩

/-- Running the scanner over a digit run followed by `]` closes the current
capture. -/
theorem citesFrom_digits : ∀ (d ds b : Str), (∀ c ∈ d, c.isDigit = true) →
    ds ++ d ≠ [] →
    citesFrom (.ins ds) (d ++ ']' :: b) = (ds ++ d) :: citesFrom .out b := by
  intro d
  induction d with
  | nil =>
    intro ds b _ hne
    have hds : ds ≠ [] := by simpa using hne
    simp [citesFrom, hds, (by decide : (']' : Char).isDigit = false),
      (by decide : (']' : Char) = '[' ↔ False)]
  | cons c d ih =>
    intro ds b hd hne
    have hcd : c.isDigit = true := hd c (by simp)
    have hcb : c ≠ '[' := by
      intro h; subst h; simp at hcd
    simp only [List.cons_append, citesFrom, if_neg hcb, if_pos hcd, List.append_eq]
    have := ih (ds ++ [c]) b (fun x hx => hd x (by simp [hx])) (by simp)
    rw [this]
    simp

/-- Completeness of the scan: every bracketed nonempty digit run in the text
is emitted. -/
theorem findCites_complete {d s : Str} (hne : d ≠ [])
    (hd : ∀ c ∈ d, c.isDigit = true) (h : Occurs d s) : d ∈ findCites s := by
  obtain ⟨a, b, hab⟩ := h
  subst hab
  apply findCites_sub_append a
  have hb : ('[' : Char) = '[' := rfl
  simp only [findCites, citesFrom, if_pos hb]
  rw [citesFrom_digits d [] b hd (by simpa using hne)]
  simp

/-- Characterization of the captures of `re.findall(r'\[(\d+)\]', s)`. -/
theorem mem_findCites_iff {d s : Str} :
    d ∈ findCites s ↔ d ≠ [] ∧ (∀ c ∈ d, c.isDigit = true) ∧ Occurs d s := by
  constructor
  · exact fun h => (citesFrom_sound s).1 d h
  · exact fun ⟨h1, h2, h3⟩ => findCites_complete h1 h2 h3

/-! ### Lemmas on the bibliography aggregation -/

theorem aggAux_not_seen : ∀ (l : List SourceEntry) (seen : List Str)
    (e : SourceEntry), e ∈ (aggAux l seen).1 ++ (aggAux l seen).2 →
    e.url ∉ seen := by
  intro l
  induction l with
  | nil => intro seen e he; simp [aggAux] at he
  | cons x rest ih =>
    intro seen e he
    by_cases hseen : x.url ∈ seen
    · exact ih seen e (by simpa [aggAux, if_pos hseen] using he)
    · by_cases ht : tagNS.isPrefixOf x.title
      · simp only [aggAux, if_neg hseen, if_pos ht, List.cons_append,
          List.mem_cons] at he
        rcases he with he | he
        · subst he; exact hseen
        · have := ih (x.url :: seen) e he
          exact fun hc => this (by simp [hc])
      · simp only [aggAux, if_neg hseen, if_neg ht] at he
        rcases List.mem_append.mp he with he | he
        · have := ih (x.url :: seen) e (List.mem_append.mpr (Or.inl he))
          exact fun hc => this (by simp [hc])
        · rcases List.mem_cons.mp he with he | he
          · subst he; exact hseen
          · have := ih (x.url :: seen) e (List.mem_append.mpr (Or.inr he))
            exact fun hc => this (by simp [hc])

theorem aggAux_nodup : ∀ (l : List SourceEntry) (seen : List Str),
    (((aggAux l seen).1 ++ (aggAux l seen).2).map SourceEntry.url).Nodup := by
  intro l
  induction l with
  | nil => intro seen; simp [aggAux]
  | cons x rest ih =>
    intro seen
    by_cases hseen : x.url ∈ seen
    · simpa [aggAux, if_pos hseen] using ih seen
    · have hfresh : x.url ∉
          (((aggAux rest (x.url :: seen)).1 ++
            (aggAux rest (x.url :: seen)).2).map SourceEntry.url) := by
        intro hc
        obtain ⟨e, he, heq⟩ := List.mem_map.mp hc
        exact aggAux_not_seen rest (x.url :: seen) e he (by simp [heq])
      by_cases ht : tagNS.isPrefixOf x.title
      · simp only [aggAux, if_neg hseen, if_pos ht, List.cons_append,
          List.map_cons, List.nodup_cons]
        exact ⟨hfresh, ih (x.url :: seen)⟩
      · simp only [aggAux, if_neg hseen, if_neg ht, List.map_append,
          List.map_cons]
        rw [List.nodup_middle]
        rw [← List.map_append]
        simp only [List.nodup_cons]
        exact ⟨hfresh, ih (x.url :: seen)⟩

theorem aggAux_first : ∀ (l : List SourceEntry) (seen : List Str)
    (e : SourceEntry), e ∈ (aggAux l seen).1 ++ (aggAux l seen).2 →
    l.find? (fun x => decide (x.url = e.url)) = some e := by
  intro l
  induction l with
  | nil => intro seen e he; simp [aggAux] at he
  | cons x rest ih =>
    intro seen e he
    by_cases hseen : x.url ∈ seen
    · simp only [aggAux, if_pos hseen] at he
      have hne : x.url ≠ e.url := by
        intro hc
        exact aggAux_not_seen rest seen e he (hc ▸ hseen)
      rw [List.find?_cons_of_neg _ (by simpa using hne)]
      exact ih seen e he
    · have step : ∀ he' : e ∈ (aggAux rest (x.url :: seen)).1 ++
          (aggAux rest (x.url :: seen)).2,
          (x :: rest).find? (fun y => decide (y.url = e.url)) = some e := by
        intro he'
        have hne : x.url ≠ e.url := by
          intro hc
          exact aggAux_not_seen rest (x.url :: seen) e he' (by simp [hc])
        rw [List.find?_cons_of_neg _ (by simpa using hne)]
        exact ih (x.url :: seen) e he'
      by_cases ht : tagNS.isPrefixOf x.title
      · simp only [aggAux, if_neg hseen, if_pos ht, List.cons_append,
          List.mem_cons] at he
        rcases he with he | he
        · subst he
          exact List.find?_cons_of_pos _ (by simp)
        · exact step he
      · simp only [aggAux, if_neg hseen, if_neg ht] at he
        rcases List.mem_append.mp he with he | he
        · exact step (List.mem_append.mpr (Or.inl he))
        · rcases List.mem_cons.mp he with he | he
          · subst he
            exact List.find?_cons_of_pos _ (by simp)
          · exact step (List.mem_append.mpr (Or.inr he))

theorem aggAux_acad : ∀ (l : List SourceEntry) (seen : List Str)
    (e : SourceEntry), e ∈ (aggAux l seen).1 →
    tagNS.isPrefixOf e.title = true := by
  intro l
  induction l with
  | nil => intro seen e he; simp [aggAux] at he
  | cons x rest ih =>
    intro seen e he
    by_cases hseen : x.url ∈ seen
    · exact ih seen e (by simpa [aggAux, if_pos hseen] using he)
    · by_cases ht : tagNS.isPrefixOf x.title
      · simp only [aggAux, if_neg hseen, if_pos ht, List.mem_cons] at he
        rcases he with he | he
        · subst he; exact ht
        · exact ih (x.url :: seen) e he
      · simp only [aggAux, if_neg hseen, if_neg ht] at he
        exact ih (x.url :: seen) e he

theorem aggAux_web : ∀ (l : List SourceEntry) (seen : List Str)
    (e : SourceEntry), e ∈ (aggAux l seen).2 →
    tagNS.isPrefixOf e.title = false := by
  intro l
  induction l with
  | nil => intro seen e he; simp [aggAux] at he
  | cons x rest ih =>
    intro seen e he
    by_cases hseen : x.url ∈ seen
    · exact ih seen e (by simpa [aggAux, if_pos hseen] using he)
    · by_cases ht : tagNS.isPrefixOf x.title
      · simp only [aggAux, if_neg hseen, if_pos ht] at he
        exact ih (x.url :: seen) e he
      · simp only [aggAux, if_neg hseen, if_neg ht, List.mem_cons] at he
        rcases he with he | he
        · subst he; exact Bool.not_eq_true _ ▸ ht
        · exact ih (x.url :: seen) e he

theorem aggAux_complete : ∀ (l : List SourceEntry) (seen : List Str)
    (e : SourceEntry), e ∈ l → e.url ∉ seen →
    ∃ e', (e' ∈ (aggAux l seen).1 ++ (aggAux l seen).2) ∧ e'.url = e.url := by
  intro l
  induction l with
  | nil => intro seen e he _; simp at he
  | cons x rest ih =>
    intro seen e he hseen
    by_cases hx : x.url ∈ seen
    · have herest : e ∈ rest := by
        rcases List.mem_cons.mp he with he | he
        · subst he; exact absurd hx hseen
        · exact he
      obtain ⟨e', he', hurl⟩ := ih seen e herest hseen
      exact ⟨e', by simpa [aggAux, if_pos hx] using he', hurl⟩
    · have hxout : x ∈ (aggAux (x :: rest) seen).1 ++ (aggAux (x :: rest) seen).2 := by
        by_cases ht : tagNS.isPrefixOf x.title
        · simp only [aggAux, if_neg hx, if_pos ht, List.cons_append,
            List.mem_append, List.mem_cons]
          exact Or.inl trivial
        · simp only [aggAux, if_neg hx, if_neg ht, List.mem_append,
            List.mem_cons]
          exact Or.inr (Or.inl trivial)
      by_cases hu : e.url = x.url
      · exact ⟨x, hxout, hu.symm⟩
      · have herest : e ∈ rest := by
          rcases List.mem_cons.mp he with he | he
          · subst he; exact absurd rfl hu
          · exact he
        obtain ⟨e', he', hurl⟩ :=
          ih (x.url :: seen) e herest (by simp [hu, hseen])
        refine ⟨e', ?_, hurl⟩
        by_cases ht : tagNS.isPrefixOf x.title
        · simp only [aggAux, if_neg hx, if_pos ht, List.cons_append,
            List.mem_cons]
          exact Or.inr he'
        · simp only [aggAux, if_neg hx, if_neg ht] at he' ⊢
          rcases List.mem_append.mp he' with he' | he'
          · exact List.mem_append.mpr (Or.inl he')
          · exact List.mem_append.mpr (Or.inr (List.mem_cons.mpr (Or.inr he')))

/-! ### Lemmas on the title display form -/

theorem occursB_cons_false {p : Str} {c : Char} {cs : Str}
    (h : occursB p (c :: cs) = false) :
    p.isPrefixOf (c :: cs) = false ∧ occursB p cs = false := by
  simp only [occursB, List.tails_cons, List.any_cons, Bool.or_eq_false_iff] at h
  exact ⟨h.1, h.2⟩

theorem replAll_of_no_occur : ∀ (f : Nat) (p s : Str), occursB p s = false →
    replAll f p s = s := by
  intro f
  induction f with
  | zero => intro p s _; rfl
  | succ f ih =>
    intro p s h
    cases s with
    | nil => rfl
    | cons c cs =>
      obtain ⟨h1, h2⟩ := occursB_cons_false h
      simp only [replAll, dropExact, h1, Bool.false_eq_true, if_false]
      rw [ih p cs h2]

theorem replAll_strip_head (f : Nat) (p rest : Str) (hp : p ≠ []) :
    replAll (f + 1) p (p ++ rest) = replAll f p rest := by
  cases p with
  | nil => exact absurd rfl hp
  | cons q qs =>
    have hd : dropExact (q :: qs) (q :: (qs ++ rest)) = some rest := by
      have h1 : (q :: qs).isPrefixOf (q :: (qs ++ rest)) = true := by
        rw [List.isPrefixOf_iff_prefix]
        exact ⟨rest, by simp⟩
      simp only [dropExact, h1, if_true]
      congr 1
      have hdl := List.drop_left (q :: qs) rest
      simp only [List.cons_append] at hdl
      exact hdl
    simp only [List.cons_append, replAll, List.append_eq, hd]

theorem renderAcademicTitle_strip {rest : Str} (h : occursB tagWS rest = false) :
    renderAcademicTitle (tagWS ++ rest) = rest := by
  have hlen : (tagWS ++ rest).length = (tagWS.length - 1 + rest.length) + 1 := by
    simp only [List.length_append]
    have : tagWS.length = 11 := by decide
    omega
  unfold renderAcademicTitle
  rw [hlen, replAll_strip_head _ _ _ (by decide)]
  exact replAll_of_no_occur _ _ _ h

/-! ### Lemmas on the link validator -/

theorem foldl_linkStep (net : Str → NetOutcome) : ∀ (l : List Str)
    (acc : Nat × List (Str × Reason)),
    l.foldl (linkStep net) acc =
      (acc.1 + (l.filter fun u => okB (net u)).length,
        acc.2 ++ (l.filter fun u => !okB (net u)).map
          fun u => (u, reasonOf (net u))) := by
  intro l
  induction l with
  | nil => intro acc; simp
  | cons u rest ih =>
    intro acc
    cases hnet : net u with
    | response code =>
      by_cases hc : code < 400
      · simp [linkStep, hnet, hc, ih, List.filter_cons, okB, reasonOf,
          Prod.ext_iff]
        omega
      · simp [linkStep, hnet, hc, ih, List.filter_cons, okB, reasonOf,
          Prod.ext_iff]
    | exception m =>
      simp [linkStep, hnet, ih, List.filter_cons, okB, reasonOf, Prod.ext_iff]

theorem validate_links_eq (net : Str → NetOutcome) (text : Str) :
    validate_links net text =
      ((((findURLs text).dedup).filter fun u => okB (net u)).length,
        (((findURLs text).dedup).filter fun u => !okB (net u)).map
          fun u => (u, reasonOf (net u))) := by
  simpa [validate_links] using foldl_linkStep net ((findURLs text).dedup) (0, [])

theorem filter_length_partition {α : Type} (p : α → Bool) : ∀ l : List α,
    (l.filter p).length + (l.filter fun x => !(p x)).length = l.length := by
  intro l
  induction l with
  | nil => simp
  | cons x rest ih =>
    by_cases hx : p x = true <;> simp [List.filter_cons, hx] <;> omega

/-- The report produced when the marker scan matches with tail `bib`. -/
theorem reportOf_of_split {text bib : Str} (hs : lastSplitTail text = some bib) :
    reportOf text = some
      { text_citations := (findCites text).toFinset
        bib_citations := (findCites bib).toFinset
        orphans_in_text := (findCites text).toFinset \ (findCites bib).toFinset
        orphans_in_bib := (findCites bib).toFinset \ (findCites text).toFinset
        has_original_ref := decide (['0'] ∈ (findCites text).toFinset) } := by
  simp only [reportOf, validate_citations, Except.toOption, hs]

/-- Inversion: a successful check exposes the bibliography tail and the
shape of the report. -/
theorem reportOf_eq_some {text : Str} {r : CitationReport}
    (h : reportOf text = some r) :
    ∃ bib, lastSplitTail text = some bib ∧
      r = { text_citations := (findCites text).toFinset
            bib_citations := (findCites bib).toFinset
            orphans_in_text :=
              (findCites text).toFinset \ (findCites bib).toFinset
            orphans_in_bib :=
              (findCites bib).toFinset \ (findCites text).toFinset
            has_original_ref := decide (['0'] ∈ (findCites text).toFinset) } := by
  cases hs : lastSplitTail text with
  | none =>
    rw [reportOf, validate_citations] at h
    simp only [hs, Except.toOption] at h
    exact Option.noConfusion h
  | some bib =>
    rw [reportOf_of_split hs] at h
    exact ⟨bib, rfl, (Option.some.inj h).symm⟩

/-! ### Claims -/

/-- C1 (counterexample): on `ex1` the tail after the FIRST standalone
marker word is `specTail1`, yet the checker's bibliography citation set
differs from the citation set of that tail: the code keeps the tail after
the LAST match of the scan, and also matches markers embedded inside
longer words (here the `sources` inside `resources`). -/
theorem C1_counterexample :
    specFirstStandaloneTail ex1 = some specTail1 ∧
    (reportOf ex1).map CitationReport.bib_citations ≠
      some ((findCites specTail1).toFinset) := by
  constructor
  · decide
  · decide

/-- C1 (amended): whenever the scan matches, the checker computes the
bibliography citation set from a suffix `t` of the text that immediately
follows a case-insensitive occurrence of a marker word (occurrences
embedded inside longer words included) and in which the scan finds no
further marker — that is, the tail after the LAST scan match, not the
first standalone occurrence. -/
theorem C1_amended (text t : Str) (h : lastSplitTail text = some t) :
    (∃ pre m, text = pre ++ m ++ t ∧ isMarkerCI m) ∧
    lastSplitTail t = none ∧
    (reportOf text).map CitationReport.bib_citations =
      some ((findCites t).toFinset) := by
  obtain ⟨hdec, hnone⟩ := lastSplitTail_decomp h
  refine ⟨hdec, hnone, ?_⟩
  simp [reportOf, validate_citations, h, Except.toOption]

theorem C1_witness :
    ((∃ pre m, ex1 = pre ++ m ++ wtail1 ∧ isMarkerCI m) ∧
      lastSplitTail wtail1 = none ∧
      (reportOf ex1).map CitationReport.bib_citations =
        some ((findCites wtail1).toFinset)) :=
  C1_amended ex1 wtail1 (by decide)

/-- C2: when no case-insensitive occurrence of a marker word exists
anywhere in the text, `validate_citations` returns the distinct
missing-bibliography error value instead of a citation report. -/
theorem C2_missing_marker (text : Str)
    (h : ¬ ∃ a m b, text = a ++ m ++ b ∧ isMarkerCI m) :
    validate_citations text = Except.error "No bibliography section found" := by
  have hnone : lastSplitTail text = none :=
    scanLast_none_of_noMarker text.length text (markerTail_none_of_noMarker h)
  simp [validate_citations, hnone]

theorem C2_witness :
    validate_citations w2 = Except.error "No bibliography section found" :=
  C2_missing_marker w2 (fun hex =>
    absurd (hasMarkerB_of_exists hex) (by decide))

/-- C3: the aggregated bibliography holds each URL at most once across the
two output sequences together (Nodup); every kept entry is exactly the
first entry bearing its URL in chapter order then entry order, so later
duplicates never displace it even when their titles differ; and every URL
occurring in the input IS kept: some output entry carries it — together,
each input URL appears exactly once, attributed to its first-seen entry. -/
theorem C3_dedup_first_seen (chs : List (List SourceEntry)) :
    ((((aggregateChapters chs).1 ++ (aggregateChapters chs).2).map
      SourceEntry.url).Nodup) ∧
    (∀ e ∈ (aggregateChapters chs).1 ++ (aggregateChapters chs).2,
      chs.flatten.find? (fun x => decide (x.url = e.url)) = some e) ∧
    (∀ e ∈ chs.flatten, ∃ e',
      (e' ∈ (aggregateChapters chs).1 ++ (aggregateChapters chs).2) ∧
      e'.url = e.url) :=
  ⟨aggAux_nodup _ _, fun e he => aggAux_first _ _ e he,
    fun e he => aggAux_complete _ [] e he (by simp)⟩

theorem C3_witness :
    (((aggregateChapters [[pA], [pAdup]]).1 ++
      (aggregateChapters [[pA], [pAdup]]).2).map SourceEntry.url).Nodup ∧
    ([[pA], [pAdup]] : List (List SourceEntry)).flatten.find?
      (fun x => decide (x.url = pA.url)) = some pA ∧
    ∃ e', (e' ∈ (aggregateChapters [[pA], [pAdup]]).1 ++
      (aggregateChapters [[pA], [pAdup]]).2) ∧ e'.url = pAdup.url :=
  ⟨(C3_dedup_first_seen [[pA], [pAdup]]).1,
    (C3_dedup_first_seen [[pA], [pAdup]]).2.1 pA (by decide),
    (C3_dedup_first_seen [[pA], [pAdup]]).2.2 pAdup (by decide)⟩

/-- C4 (counterexample): on `ex4`, index 0 is cited in the body
(`['0'] ∈ text_citations`), absent from the bibliography citation set, and
IS listed as an orphan in `orphans_in_text`: the code grants index 0 no
exemption. -/
theorem C4_counterexample :
    (reportOf ex4).map (fun r => (decide (['0'] ∈ r.text_citations),
      decide (['0'] ∈ r.bib_citations), decide (['0'] ∈ r.orphans_in_text))) =
      some (true, false, true) := by
  decide

/-- C4 (amended): index 0 receives no exemption from orphan checks: when 0
is in the in-text citation set but not in the bibliography citation set,
it appears in `orphans_in_text`; the only special treatment of index 0 is
the separate `has_original_ref` flag. -/
theorem C4_amended (text : Str) (r : CitationReport)
    (h : reportOf text = some r) (h0 : ['0'] ∈ r.text_citations)
    (hb : ['0'] ∉ r.bib_citations) : ['0'] ∈ r.orphans_in_text := by
  obtain ⟨bib, hs, hr⟩ := reportOf_eq_some h
  subst hr
  exact Finset.mem_sdiff.mpr ⟨h0, hb⟩

theorem C4_witness : ['0'] ∈ r4.orphans_in_text :=
  C4_amended ex4 r4 (by decide) (by decide) (by decide)

/-- C5 (counterexample): the entry titled `[Academic]X` (no trailing
space) is routed to the academic sequence although its title does not
start with the literal `"[Academic] "`; and the academic display form of
`"[Academic] A [Academic] B"` removes every occurrence of the tag, not
exactly the leading one. -/
theorem C5_counterexample :
    exA ∈ (aggregateChapters [[exA]]).1 ∧
    tagWS.isPrefixOf exA.title = false ∧
    renderAcademicTitle exRenderT = "A B".toList ∧
    renderAcademicTitle exRenderT ≠ "A [Academic] B".toList := by
  refine ⟨by decide, by decide, by decide, by decide⟩

/-- C5 (amended): aggregation routes an entry to the academic sequence iff
its title starts with `"[Academic]"` (no trailing space required); the
academic display form removes every occurrence of `"[Academic] "` (with
trailing space) from the title — so a title `"[Academic] Foo"` whose
remainder does not contain the tag renders as `"Foo"` — and a web entry's
title is rendered unchanged. -/
theorem C5_amended (chs : List (List SourceEntry)) (e : SourceEntry) :
    (e ∈ (aggregateChapters chs).1 → tagNS.isPrefixOf e.title = true) ∧
    (e ∈ (aggregateChapters chs).2 → tagNS.isPrefixOf e.title = false) ∧
    (∀ rest : Str, occursB tagWS rest = false →
      renderAcademicTitle (tagWS ++ rest) = rest) ∧
    renderWebTitle e.title = e.title :=
  ⟨fun he => aggAux_acad _ _ e he, fun he => aggAux_web _ _ e he,
    fun _ h => renderAcademicTitle_strip h, rfl⟩

theorem C5_witness :
    tagNS.isPrefixOf pA.title = true ∧
    renderAcademicTitle (tagWS ++ "Foo".toList) = "Foo".toList :=
  ⟨(C5_amended [[pA]] pA).1 (by decide),
    (C5_amended [[pA]] pA).2.2.1 ("Foo".toList) (by decide)⟩

/-- C6: for every network oracle and text, valid_count plus the number of
broken links equals the number of distinct URLs extracted from the text;
each distinct URL gets exactly one verdict: the broken URLs are pairwise
distinct and all come from the (duplicate-collapsed) extraction. -/
theorem C6_count_invariant (net : Str → NetOutcome) (text : Str) :
    (validate_links net text).1 + (validate_links net text).2.length =
      ((findURLs text).dedup).length ∧
    ((validate_links net text).2.map Prod.fst).Nodup ∧
    ∀ p ∈ (validate_links net text).2, p.1 ∈ (findURLs text).dedup := by
  rw [validate_links_eq]
  refine ⟨?_, ?_, ?_⟩
  · simp only [List.length_map]
    exact filter_length_partition _ _
  · rw [List.map_map]
    have hid : (Prod.fst ∘ fun u => (u, reasonOf (net u))) = id := rfl
    rw [hid, List.map_id]
    exact ((findURLs text).nodup_dedup).filter _
  · intro p hp
    obtain ⟨u, hu, hup⟩ := List.mem_map.mp hp
    rw [← hup]
    exact List.mem_of_mem_filter hu

theorem C6_witness :
    ((validate_links wnet6 wtext6).1 + (validate_links wnet6 wtext6).2.length =
      ((findURLs wtext6).dedup).length) ∧
    ("http://a".toList, Reason.status 404).1 ∈ (findURLs wtext6).dedup :=
  ⟨(C6_count_invariant wnet6 wtext6).1,
    (C6_count_invariant wnet6 wtext6).2.2 _ (by decide)⟩

/-- C7: the link validator is total over the URL set and never aborts:
its broken list is exactly the failing URLs (HTTP status at least 400, or
any transport exception) each paired with its reason — the status code for
HTTP failures, the exception message otherwise — and its valid count is
exactly the number of URLs whose status is below 400; in particular every
per-URL failure is recorded and never prevents the remaining URLs from
receiving their verdicts. -/
theorem C7_per_url_failures (net : Str → NetOutcome) (text : Str) :
    (validate_links net text).2 =
      (((findURLs text).dedup).filter fun u => !okB (net u)).map
        (fun u => (u, reasonOf (net u))) ∧
    (validate_links net text).1 =
      (((findURLs text).dedup).filter fun u => okB (net u)).length ∧
    ∀ u ∈ (findURLs text).dedup, okB (net u) = false →
      (u, reasonOf (net u)) ∈ (validate_links net text).2 := by
  rw [validate_links_eq]
  refine ⟨rfl, rfl, ?_⟩
  intro u hu hfail
  exact List.mem_map.mpr ⟨u, List.mem_filter.mpr ⟨hu, by simp [hfail]⟩, rfl⟩

theorem C7_witness :
    ("http://b".toList, reasonOf (wnet7 "http://b".toList)) ∈
      (validate_links wnet7 wtext7).2 :=
  (C7_per_url_failures wnet7 wtext7).2.2 _ (by decide) (by decide)

/-- C8 (counterexample): on `ex8` the integer 0 belongs to the in-text
citation set read as integers (the text cites `[00]`), yet
`has_original_ref` is false: the code tests the literal digit string
`"0"`. -/
theorem C8_counterexample :
    (reportOf ex8).map (fun r => (r.has_original_ref,
      decide ((0 : Nat) ∈ r.text_citations.image digitsToNat))) =
      some (false, true) := by
  decide

/-- C8 (amended): for every text on which the checker succeeds,
`has_original_ref` is true iff the exact bracketed token `[0]` occurs
verbatim in the text; alternate digit spellings of zero such as `[00]` do
not count, because citation indices are compared as digit strings, not as
integers. -/
theorem C8_amended (text : Str) (h : (lastSplitTail text).isSome = true) :
    ((reportOf text).map CitationReport.has_original_ref = some true ↔
      ∃ a b, text = a ++ '[' :: '0' :: ']' :: b) := by
  obtain ⟨bib, hbib⟩ := Option.isSome_iff_exists.mp h
  rw [reportOf_of_split hbib]
  simp only [Option.map_some', Option.some.injEq, decide_eq_true_eq,
    List.mem_toFinset, mem_findCites_iff]
  constructor
  · rintro ⟨-, -, a, b, hab⟩
    exact ⟨a, b, by simpa using hab⟩
  · rintro ⟨a, b, hab⟩
    exact ⟨by simp, by decide, a, b, by simpa using hab⟩

theorem C8_witness :
    ((lastSplitTail w8).isSome = true) ∧
    (reportOf w8).map CitationReport.has_original_ref = some true :=
  ⟨by decide, (C8_amended w8 (by decide)).mpr
    ⟨[], " Sources [0]".toList, by decide⟩⟩

/-- C9: on every successful check, the two orphan sets are disjoint set
differences in opposite directions, and together with the intersection of
the in-text and bibliography sets they reconstruct the union of the two
original sets. -/
theorem C9_set_algebra (text : Str) (r : CitationReport)
    (h : reportOf text = some r) :
    Disjoint r.orphans_in_text r.orphans_in_bib ∧
    (r.orphans_in_text ∪ r.orphans_in_bib ∪
      (r.text_citations ∩ r.bib_citations) =
      r.text_citations ∪ r.bib_citations) := by
  obtain ⟨bib, hs, hr⟩ := reportOf_eq_some h
  subst hr
  constructor
  · exact disjoint_sdiff_sdiff
  · ext x
    simp only [Finset.mem_union, Finset.mem_sdiff, Finset.mem_inter]
    tauto

theorem C9_witness :
    Disjoint r9.orphans_in_text r9.orphans_in_bib ∧
    (r9.orphans_in_text ∪ r9.orphans_in_bib ∪
      (r9.text_citations ∩ r9.bib_citations) =
      r9.text_citations ∪ r9.bib_citations) :=
  C9_set_algebra ex9 r9 (by decide)

/-- C10: on every successful check `orphans_in_bib` is empty: the
bibliography text is a suffix of the whole text and the bracketed-integer
scan of a suffix only yields captures the scan of the whole text also
yields, so the bibliography citation set is contained in the in-text one. -/
theorem C10_orphans_in_bib_empty (text : Str) (r : CitationReport)
    (h : reportOf text = some r) : r.orphans_in_bib = ∅ := by
  obtain ⟨bib, hs, hr⟩ := reportOf_eq_some h
  subst hr
  rw [Finset.sdiff_eq_empty_iff_subset]
  intro x hx
  rw [List.mem_toFinset] at hx ⊢
  obtain ⟨pre, hpre⟩ := lastSplitTail_suffix hs
  rw [hpre]
  exact findCites_sub_append pre bib hx

theorem C10_witness : r4.orphans_in_bib = ∅ :=
  C10_orphans_in_bib_empty ex4 r4 (by decide)

end RepUp
